import Mathlib

/-!
Verification of the `startupscraper` scraper (`src/startupscraper/scraper.py`
and `src/scrape.py`) against its natural-language specification.

The Python code is shallowly embedded: pure fragments become Lean functions
over `List Char` / `String`, the browser and the HTML parser are modelled as
environments supplying page texts and tag strings, and Python exceptions
become explicit error values.  The `while True` retry loop of
`Driver.find_element_` is modelled with an explicit fuel parameter so that
its (non-)termination can be stated.
-/

set_option autoImplicit false

namespace StartupScraper

/-! ## Element Locator: `Driver.find_element_` (scraper.py lines 40-59)

The Python loop keeps a counter `cycle` starting at 1; each failed lookup
(`NoSuchElementException`) either returns `None` when `cycle == retry` or
increments `cycle`.  `lookup` maps the 1-based attempt number to the lookup
outcome of that attempt (`none` models the exception).  The outer `Option`
is the fuel: `none` means the loop has not exited within `fuel` attempts. -/

/-- One execution of the `while True` loop of `find_element_`, starting at a
given `cycle` value, allowed to run for `fuel` attempts. -/
def find_element_loop {α : Type} (lookup : Int → Option α) (retry : Int) :
    Int → Nat → Option (Option α)
  | _, 0 => none
  | cycle, fuel + 1 =>
    match lookup cycle with
    | some e => some (some e)
    | none => if cycle = retry then some none
              else find_element_loop lookup retry (cycle + 1) fuel

/-- `Driver.find_element_`: the loop entered with `cycle = 1`. -/
def find_element_ {α : Type} (lookup : Int → Option α) (retry : Int)
    (fuel : Nat) : Option (Option α) :=
  find_element_loop lookup retry 1 fuel

/-- Lookup stub of the spec's Element Locator property: the lookup raising a
not-found condition on the first `k` attempts and succeeding from attempt
`k + 1` on. -/
def failsThenSucceeds (k : Nat) : Int → Option Unit :=
  fun i => if i ≤ (k : Int) then none else some ()

theorem find_element_loop_stub_succeeds (k : Nat) (n : Int) :
    ∀ (f : Nat) (c : Int), (k : Int) < n → 1 ≤ f →
      (k : Int) + 2 - c ≤ (f : Int) →
      find_element_loop (failsThenSucceeds k) n c f = some (some ()) := by
  intro f
  induction f with
  | zero => intro c _ h1 _; omega
  | succ f ih =>
    intro c hk _ hf
    by_cases hc : c ≤ (k : Int)
    · have hcn : ¬ c = n := by omega
      have hrec := ih (c + 1) hk (by omega) (by push_cast at hf ⊢; omega)
      simp only [find_element_loop, failsThenSucceeds, if_pos hc, if_neg hcn]
      exact hrec
    · simp only [find_element_loop, failsThenSucceeds, if_neg hc]

theorem find_element_loop_stub_exhausts (k : Nat) (n : Int) :
    ∀ (f : Nat) (c : Int), n ≤ (k : Int) → 1 ≤ c → c ≤ n → n - c < (f : Int) →
      find_element_loop (failsThenSucceeds k) n c f = some none := by
  intro f
  induction f with
  | zero => intro c _ _ hcn hf; omega
  | succ f ih =>
    intro c hnk hc hcn hf
    have hck : c ≤ (k : Int) := le_trans hcn hnk
    by_cases hceq : c = n
    · simp only [find_element_loop, failsThenSucceeds, if_pos hck, if_pos hceq]
    · have hrec := ih (c + 1) hnk (by omega) (by omega) (by push_cast at hf ⊢; omega)
      simp only [find_element_loop, failsThenSucceeds, if_pos hck, if_neg hceq]
      exact hrec

theorem find_element_loop_stub_spins (k : Nat) (n : Int) :
    ∀ (f : Nat) (c : Int), n ≤ (k : Int) → 1 ≤ c → c + (f : Int) ≤ n →
      find_element_loop (failsThenSucceeds k) n c f = none := by
  intro f
  induction f with
  | zero => intro c _ _ _; rfl
  | succ f ih =>
    intro c hnk hc hf
    have hck : c ≤ (k : Int) := by push_cast at hf; omega
    have hcn : ¬ c = n := by push_cast at hf; omega
    have hrec := ih (c + 1) hnk (by omega) (by push_cast at hf ⊢; omega)
    simp only [find_element_loop, failsThenSucceeds, if_pos hck, if_neg hcn]
    exact hrec

theorem find_element_loop_total {α : Type} (lookup : Int → Option α) (retry : Int) :
    ∀ (f : Nat) (c : Int), c ≤ retry → retry - c < (f : Int) →
      ∃ r, find_element_loop lookup retry c f = some r := by
  intro f
  induction f with
  | zero => intro c hc hf; omega
  | succ f ih =>
    intro c hc hf
    match he : lookup c with
    | some e => exact ⟨some e, by simp only [find_element_loop, he]⟩
    | none =>
      by_cases hceq : c = retry
      · exact ⟨none, by simp only [find_element_loop, he, if_pos hceq]⟩
      · have ⟨r, hr⟩ := ih (c + 1) (by omega) (by push_cast at hf ⊢; omega)
        exact ⟨r, by simp only [find_element_loop, he, if_neg hceq]; exact hr⟩

theorem find_element_loop_diverges {α : Type} (retry : Int) :
    ∀ (f : Nat) (c : Int), retry < c →
      find_element_loop (fun _ => (none : Option α)) retry c f = none := by
  intro f
  induction f with
  | zero => intro c _; rfl
  | succ f ih =>
    intro c hc
    have hcn : ¬ c = retry := by omega
    simp only [find_element_loop, if_neg hcn]
    exact ih (c + 1) (by omega)

/-- C1: with a lookup stub that raises the not-found condition on the first
`k` attempts and succeeds from attempt `k + 1` on, `Driver.find_element_`
with `retry = n` (`n ≥ 1`) returns the found element iff `k < n`; when
`k ≥ n` it returns `None` (an absence value, not a raised error) after
exactly `n` failed attempts: with fuel for `n` attempts the loop has
returned `None`, with fuel for only `n - 1` attempts it has not yet exited. -/
theorem C1_find_element_retry (n k : Nat) (hn : 1 ≤ n) :
    (k < n → find_element_ (failsThenSucceeds k) (n : Int) n = some (some ())) ∧
    (n ≤ k → find_element_ (failsThenSucceeds k) (n : Int) n = some none ∧
             find_element_ (failsThenSucceeds k) (n : Int) (n - 1) = none) := by
  constructor
  · intro hkn
    exact find_element_loop_stub_succeeds k n n 1 (by exact_mod_cast hkn)
      (by omega) (by omega)
  · intro hnk
    refine ⟨find_element_loop_stub_exhausts k n n 1 (by exact_mod_cast hnk)
      le_rfl (by exact_mod_cast hn) (by omega),
      find_element_loop_stub_spins k n (n - 1) 1 (by exact_mod_cast hnk)
      le_rfl (by omega)⟩

theorem C1_find_element_retry_witness :
    find_element_ (failsThenSucceeds 1) (2 : Int) 2 = some (some ()) ∧
    find_element_ (failsThenSucceeds 5) (3 : Int) 3 = some none ∧
    find_element_ (failsThenSucceeds 5) (3 : Int) 2 = none :=
  ⟨(C1_find_element_retry 2 1 (by decide)).1 (by decide),
   ((C1_find_element_retry 3 5 (by decide)).2 (by decide)).1,
   ((C1_find_element_retry 3 5 (by decide)).2 (by decide)).2⟩

/-- C10: `Driver.find_element_` terminates for every `retry ≥ 1` — for any
lookup behaviour it returns within at most `retry` attempts — while for
`retry ≤ 0` and a lookup that never succeeds the loop never exits, whatever
number of attempts it is allowed (the counter starts at 1 and only
increments, so it never equals `retry`). -/
theorem C10_find_element_termination (retry : Int) :
    (1 ≤ retry → ∀ lookup : Int → Option Unit,
        ∃ r, find_element_ lookup retry retry.toNat = some r) ∧
    (retry ≤ 0 → ∀ fuel : Nat,
        find_element_ (fun _ => (none : Option Unit)) retry fuel = none) := by
  constructor
  · intro h lookup
    exact find_element_loop_total lookup retry retry.toNat 1 h (by omega)
  · intro h fuel
    exact find_element_loop_diverges retry fuel 1 (by omega)

theorem C10_find_element_termination_witness :
    (∃ r, find_element_ (fun _ => (none : Option Unit)) (2 : Int) 2 = some r) ∧
    find_element_ (fun _ => (none : Option Unit)) (0 : Int) 7 = none :=
  ⟨(C10_find_element_termination 2).1 (by decide) (fun _ => none),
   (C10_find_element_termination 0).2 (by decide) 7⟩

/-! ## Character-list utilities shared by the regex embeddings -/

/-- Index of the last occurrence of `c`, if any. -/
def lastIdxOf (c : Char) : List Char → Option Nat
  | [] => none
  | a :: as =>
    match lastIdxOf c as with
    | some i => some (i + 1)
    | none => if a = c then some 0 else none

/-- Index of the first occurrence of `c`, if any. -/
def firstIdxOf (c : Char) : List Char → Option Nat
  | [] => none
  | a :: as => if a = c then some 0 else (firstIdxOf c as).map (· + 1)

/-! ## Job Finder keyword matching: `Startup.find_jobs` (scraper.py 197-222)

`find_jobs` tests each keyword with `re.findall(keyword, visible_text)`:
the keyword is handed to the regex engine as a pattern.  The embedding
models the literal-and-wildcard fragment of Python regexes (an ordinary
character matches itself, `.` matches any character except a newline);
every pattern appearing in a theorem stays inside this fragment. -/

/-- Match of one pattern character against one text character. -/
def reCharMatches (p c : Char) : Bool :=
  if p = '.' then c != '\n' else p == c

/-- Match of the whole pattern at the start of the text. -/
def reMatchesAt : List Char → List Char → Bool
  | [], _ => true
  | _ :: _, [] => false
  | p :: ps, c :: cs => reCharMatches p c && reMatchesAt ps cs

/-- Whether the pattern matches somewhere in the text;
`re.findall(pat, text)` returns a non-empty (truthy) list exactly when a
match exists. -/
def reSearch (pat : List Char) : List Char → Bool
  | [] => reMatchesAt pat []
  | c :: cs => reMatchesAt pat (c :: cs) || reSearch pat cs

/-- Python regex metacharacters: a keyword free of them is matched as the
literal string it spells. -/
def isRegexMeta (c : Char) : Bool :=
  ['.', '^', '$', '*', '+', '?', '\x7b', '\x7d',
   '[', ']', '\\', '|', '(', ')'].contains c

/-- Literal substring presence — the spec's reading of keyword matching
(`keyword in text`). -/
def isSub (needle : List Char) : List Char → Bool
  | [] => needle.isEmpty
  | c :: cs => needle.isPrefixOf (c :: cs) || isSub needle cs

/-- Python `str.lower()` (ASCII case folding, which covers the claims). -/
def lowerStr (s : String) : String :=
  String.mk (s.data.map Char.toLower)

/-- The `finds` dict of a `Startup`: keyword → job-page URLs, kept in
insertion order as Python dicts do. -/
abbrev Finds := List (String × List String)

/-- The `try/except KeyError` update of `find_jobs`: append the URL to the
keyword's list, creating the entry (at the end, as dict insertion does) on
the first hit. -/
def findsAppend (fs : Finds) (k url : String) : Finds :=
  if (fs.lookup k).isSome then
    fs.map (fun kv => if kv.1 = k then (kv.1, kv.2 ++ [url]) else kv)
  else fs ++ [(k, [url])]

/-- The per-job-page body of the `find_jobs` loop: lower-case the visible
text, and for each keyword in order append the page URL on a regex hit. -/
def processPage (fs : Finds) (keywords : List String)
    (pageText pageUrl : String) : Finds :=
  keywords.foldl
    (fun acc kw =>
      if reSearch kw.data (lowerStr pageText).data then
        findsAppend acc kw pageUrl
      else acc)
    fs

theorem reMatchesAt_literal (pat : List Char) (hdot : '.' ∉ pat) :
    ∀ cs, reMatchesAt pat cs = pat.isPrefixOf cs := by
  induction pat with
  | nil => intro cs; cases cs <;> rfl
  | cons p ps ih =>
    intro cs
    cases cs with
    | nil => rfl
    | cons c cs' =>
      have hp : ¬ p = '.' := fun h => hdot (h ▸ List.mem_cons_self p ps)
      show (reCharMatches p c && reMatchesAt ps cs') = (p == c && ps.isPrefixOf cs')
      rw [reCharMatches, if_neg hp, ih (fun h => hdot (List.mem_cons_of_mem p h)) cs']

theorem reSearch_literal (pat : List Char) (hdot : '.' ∉ pat) :
    ∀ txt, reSearch pat txt = isSub pat txt := by
  intro txt
  induction txt with
  | nil =>
    show reMatchesAt pat [] = pat.isEmpty
    cases pat with
    | nil => rfl
    | cons p ps => rfl
  | cons c cs ih =>
    show (reMatchesAt pat (c :: cs) || reSearch pat cs)
        = (pat.isPrefixOf (c :: cs) || isSub pat cs)
    rw [reMatchesAt_literal pat hdot, ih]

theorem lookup_findsAppend_new (fs : Finds) (k u : String)
    (h : fs.lookup k = none) : (findsAppend fs k u).lookup k = some [u] := by
  rw [findsAppend, if_neg (by rw [h]; simp)]
  induction fs with
  | nil => simp [List.lookup]
  | cons a fs ih =>
    obtain ⟨ak, av⟩ := a
    rw [List.cons_append]
    cases hak : k == ak with
    | true =>
      exfalso
      simp only [List.lookup, hak] at h
      exact Option.noConfusion h
    | false =>
      simp only [List.lookup, hak] at h ⊢
      exact ih h

theorem lookup_findsAppend_old (fs : Finds) (k u : String) (l : List String)
    (h : fs.lookup k = some l) :
    (findsAppend fs k u).lookup k = some (l ++ [u]) := by
  rw [findsAppend, if_pos (by rw [h]; rfl)]
  induction fs with
  | nil => simp [List.lookup] at h
  | cons a fs ih =>
    obtain ⟨ak, av⟩ := a
    cases hak : k == ak with
    | true =>
      have hke : ak = k := (eq_of_beq hak).symm
      simp only [List.lookup, hak] at h
      have hav : av = l := Option.some.inj h
      rw [List.map_cons]
      rw [show (if (ak, av).1 = k then ((ak, av).1, (ak, av).2 ++ [u]) else (ak, av))
            = (ak, av ++ [u]) from if_pos hke]
      simp only [List.lookup, hak]
      rw [hav]
    | false =>
      have hke : ¬ ak = k := by
        intro he; rw [he] at hak; simp at hak
      simp only [List.lookup, hak] at h
      rw [List.map_cons]
      rw [show (if (ak, av).1 = k then ((ak, av).1, (ak, av).2 ++ [u]) else (ak, av))
            = (ak, av) from if_neg hke]
      simp only [List.lookup, hak]
      exact ih h

/-- C2 (amended): in `find_jobs` a keyword is matched against the
lower-cased visible page text as a regular-expression pattern
(`re.findall(keyword, visible_text)`), not as a literal; for a keyword free
of regex metacharacters this coincides with literal substring presence, and
on a match the job-page URL is appended to `finds[keyword]`, the entry
being created on the first hit. -/
theorem C2_keyword_matching (fs : Finds) (kw text url : String)
    (h : kw.data.all (fun c => !(isRegexMeta c)) = true) :
    (processPage fs [kw] text url =
      if isSub kw.data (lowerStr text).data then findsAppend fs kw url else fs) ∧
    (∀ k u, fs.lookup k = none → (findsAppend fs k u).lookup k = some [u]) ∧
    (∀ k u l, fs.lookup k = some l →
      (findsAppend fs k u).lookup k = some (l ++ [u])) := by
  have hdot : '.' ∉ kw.data := by
    intro hm
    have := List.all_eq_true.mp h _ hm
    simp [isRegexMeta] at this
  refine ⟨?_, fun k u hk => lookup_findsAppend_new fs k u hk,
    fun k u l hl => lookup_findsAppend_old fs k u l hl⟩
  show (if reSearch kw.data (lowerStr text).data then findsAppend fs kw url else fs)
      = if isSub kw.data (lowerStr text).data then findsAppend fs kw url else fs
  rw [reSearch_literal kw.data hdot]

theorem C2_keyword_matching_witness :
    processPage [] ["job"] "Jobs here" "u" = [("job", ["u"])] := by
  have h := (C2_keyword_matching [] "job" "Jobs here" "u" (by decide)).1
  rw [h]; rfl

/-- C2 (counterexample): the claim's literal-substring reading fails — the
keyword `"a.c"` is not a substring of the page text `"abc"`, yet the code
records a hit because the keyword is interpreted as a regex pattern in
which `.` matches any character. -/
theorem C2_keyword_regex_cex :
    processPage [] ["a.c"] "abc" "u" = [("a.c", ["u"])] ∧
    isSub "a.c".data "abc".data = false := by
  exact ⟨rfl, rfl⟩

/-! ## Startup name derivation: `Startup._get_name_from_url` (scraper.py 170-180)

The code runs `re.findall("\/.+\.", url)[0]` and then
`.replace("www","").replace("//","").replace(".","")`.  The pattern
`\/.+\.` matches leftmost-greedily: the match starts at the first `/` that
is followed, after at least one non-newline character, by a `.`, and the
greedy `.+` extends it to the last such `.` on the line.  `[0]` on an empty
match list raises `IndexError`, modelled as `none`. -/

/-- Attempt of the regex engine to match `\/.+\.` at a position whose
character is `/`, with `rest` the characters after it: greedy `.+` runs to
the last `.` of the newline-free span, needing at least one character in
between. -/
def tryNameMatch (rest : List Char) : Option (List Char) :=
  match lastIdxOf '.' (rest.takeWhile (fun x => x != '\n')) with
  | some q =>
    if 1 ≤ q then
      some ('/' :: (rest.takeWhile (fun x => x != '\n')).take (q + 1))
    else none
  | none => none

/-- Leftmost match of `\/.+\.` in the given character list: the engine
tries each start position left to right. -/
def reFindMatch : List Char → Option (List Char)
  | [] => none
  | c :: rest =>
    if c = '/' then
      match tryNameMatch rest with
      | some m => some m
      | none => reFindMatch rest
    else reFindMatch rest

/-- Python `str.replace("www", "")` (left-to-right, non-overlapping). -/
def replaceWWW : List Char → List Char
  | 'w' :: 'w' :: 'w' :: rest => replaceWWW rest
  | c :: rest => c :: replaceWWW rest
  | [] => []

/-- Python `str.replace("//", "")` (left-to-right, non-overlapping). -/
def replaceDoubleSlash : List Char → List Char
  | '/' :: '/' :: rest => replaceDoubleSlash rest
  | c :: rest => c :: replaceDoubleSlash rest
  | [] => []

/-- Python `str.replace(".", "")`. -/
def removeDots : List Char → List Char
  | '.' :: rest => removeDots rest
  | c :: rest => c :: removeDots rest
  | [] => []

/-- The cleanup chain `.replace("www","").replace("//","").replace(".","")`. -/
def cleanName (m : List Char) : List Char :=
  removeDots (replaceDoubleSlash (replaceWWW m))

/-- `Startup._get_name_from_url`; `none` models the `IndexError` raised by
`[0]` when the pattern has no match in the URL. -/
def get_name_from_url (url : List Char) : Option (List Char) :=
  (reFindMatch url).map cleanName

/-- The spec's description of name derivation, for comparison with
`get_name_from_url`: the path segment between the last `/` and the first
following `.`, with any `"www"` and slash/dot characters removed. -/
def derive_name_spec (url : List Char) : Option (List Char) :=
  match lastIdxOf '/' url with
  | none => none
  | some i =>
    let after := url.drop (i + 1)
    match firstIdxOf '.' after with
    | none => none
    | some j =>
      some ((replaceWWW (after.take j)).filter (fun c => c != '/' && c != '.'))

theorem mem_of_mem_takeWhile {p : Char → Bool} {x : Char} :
    ∀ {l : List Char}, x ∈ l.takeWhile p → x ∈ l := by
  intro l
  induction l with
  | nil => intro h; exact h
  | cons a as ih =>
    intro h
    rw [List.takeWhile_cons] at h
    by_cases hp : p a = true
    · rw [if_pos hp] at h
      rcases List.mem_cons.mp h with h | h
      · exact h ▸ List.mem_cons_self a as
      · exact List.mem_cons_of_mem a (ih h)
    · rw [if_neg hp] at h
      exact absurd h (List.not_mem_nil x)

theorem lastIdxOf_eq_none (ch : Char) :
    ∀ l : List Char, ch ∉ l → lastIdxOf ch l = none := by
  intro l
  induction l with
  | nil => intro _; rfl
  | cons a as ih =>
    intro h
    rw [lastIdxOf, ih (fun hm => h (List.mem_cons_of_mem a hm))]
    exact if_neg (fun he : a = ch => h (he ▸ List.mem_cons_self a as))

theorem lastIdxOf_append_cons (ch : Char) (d : List Char) (hd : ch ∉ d) :
    ∀ b : List Char, lastIdxOf ch (b ++ ch :: d) = some b.length := by
  intro b
  induction b with
  | nil =>
    rw [List.nil_append, lastIdxOf, lastIdxOf_eq_none ch d hd]
    exact if_pos rfl
  | cons x b' ih =>
    rw [List.cons_append, lastIdxOf, ih]
    rfl

theorem takeWhile_append_all (p : Char → Bool) (l : List Char) :
    ∀ b : List Char, (∀ x ∈ b, p x = true) →
      (b ++ l).takeWhile p = b ++ l.takeWhile p := by
  intro b
  induction b with
  | nil => intro _; rfl
  | cons x b' ih =>
    intro h
    rw [List.cons_append, List.takeWhile_cons,
      if_pos (h x (List.mem_cons_self x b')), List.cons_append,
      ih (fun y hy => h y (List.mem_cons_of_mem x hy))]

theorem reFindMatch_cons (c : Char) (rest : List Char) :
    reFindMatch (c :: rest) =
      if c = '/' then
        match tryNameMatch rest with
        | some m => some m
        | none => reFindMatch rest
      else reFindMatch rest := rfl

theorem tryNameMatch_shape (b c : List Char) (hb : b ≠ []) (hnl : '\n' ∉ b)
    (hc : '.' ∉ c) :
    tryNameMatch (b ++ '.' :: c) = some ('/' :: (b ++ ['.'])) := by
  have hpref : (b ++ '.' :: c).takeWhile (fun x => x != '\n')
      = b ++ '.' :: c.takeWhile (fun x => x != '\n') := by
    rw [takeWhile_append_all _ _ b
      (fun x hx => by
        have : ¬ x = '\n' := fun he => hnl (he ▸ hx)
        simp [this]),
      List.takeWhile_cons, if_pos (by decide)]
  have hdot : '.' ∉ c.takeWhile (fun x => x != '\n') :=
    fun hm => hc (mem_of_mem_takeWhile hm)
  have hlast : lastIdxOf '.' ((b ++ '.' :: c).takeWhile (fun x => x != '\n'))
      = some b.length := by
    rw [hpref]
    exact lastIdxOf_append_cons '.' _ hdot b
  have hlen : 1 ≤ b.length :=
    Nat.one_le_iff_ne_zero.mpr (fun h0 => hb (List.length_eq_zero.mp h0))
  rw [tryNameMatch, hlast]
  show (if 1 ≤ b.length then
      some ('/' :: ((b ++ '.' :: c).takeWhile (fun x => x != '\n')).take (b.length + 1))
    else none) = some ('/' :: (b ++ ['.']))
  rw [if_pos hlen, hpref, List.take_append 1, List.take_cons, List.take_zero]
  exact Nat.zero_lt_one

theorem tryNameMatch_no_dot (rest : List Char) (h : '.' ∉ rest) :
    tryNameMatch rest = none := by
  have hlast : lastIdxOf '.' (rest.takeWhile (fun x => x != '\n')) = none :=
    lastIdxOf_eq_none '.' _ (fun hm => h (mem_of_mem_takeWhile hm))
  rw [tryNameMatch, hlast]

theorem reFindMatch_shape (b c : List Char) (hb : b ≠ []) (hnl : '\n' ∉ b)
    (hc : '.' ∉ c) :
    ∀ a : List Char, '/' ∉ a →
      reFindMatch (a ++ ('/' :: (b ++ '.' :: c))) = some ('/' :: (b ++ ['.'])) := by
  intro a
  induction a with
  | nil =>
    intro _
    rw [List.nil_append, reFindMatch_cons, if_pos rfl,
      tryNameMatch_shape b c hb hnl hc]
  | cons x a' ih =>
    intro hx
    have hx' : ¬ x = '/' := fun he => hx (he ▸ List.mem_cons_self x a')
    rw [List.cons_append, reFindMatch_cons, if_neg hx']
    exact ih (fun hm => hx (List.mem_cons_of_mem x hm))

theorem reFindMatch_no_dot : ∀ u : List Char, '.' ∉ u → reFindMatch u = none := by
  intro u
  induction u with
  | nil => intro _; rfl
  | cons x rest ih =>
    intro h
    have hrest : '.' ∉ rest := fun hm => h (List.mem_cons_of_mem x hm)
    have hih := ih hrest
    by_cases hx : x = '/'
    · rw [reFindMatch_cons, if_pos hx, tryNameMatch_no_dot rest hrest]
      exact hih
    · rw [reFindMatch_cons, if_neg hx]
      exact hih

/-- C3 (amended): `Startup._get_name_from_url` takes the leftmost-greedy
match of the pattern `\/.+\.` — the segment from the first `/` that has a
`.` at least two positions later, through the last such `.` — and removes
every occurrence of `"www"`, of `"//"` and of `.` from it; for a URL with
no such `/`–`.` pair (for instance one containing no dot at all) the
`[0]` indexing fails (`IndexError`), modelled as absence. -/
theorem C3_name_derivation :
    (∀ a b c : List Char, '/' ∉ a → b ≠ [] → '\n' ∉ b → '.' ∉ c →
      get_name_from_url (a ++ ('/' :: (b ++ '.' :: c)))
        = some (cleanName ('/' :: (b ++ ['.'])))) ∧
    (∀ u : List Char, '.' ∉ u → get_name_from_url u = none) := by
  constructor
  · intro a b c ha hb hnl hc
    rw [get_name_from_url, reFindMatch_shape b c hb hnl hc a ha, Option.map_some']
  · intro u hu
    rw [get_name_from_url, reFindMatch_no_dot u hu, Option.map_none']

theorem C3_name_derivation_witness :
    get_name_from_url ("http:".data ++ ('/' :: ("/www.acme".data ++ '.' :: "io".data)))
      = some "acme".data := by
  have h := C3_name_derivation.1 "http:".data "/www.acme".data "io".data
    (by decide) (by decide) (by decide) (by decide)
  rw [h]; rfl

/-- C3 (counterexample): on the well-formed homepage URL
`"http://www.acme.io"` the code derives the name `"acme"` (the greedy match
`"//www.acme."` cleaned up), while the claim's rule — the segment between
the last `/` and the first following `.`, with `"www"` and slash/dot
characters removed — yields the empty string (the segment is `"www"`). -/
theorem C3_name_cex :
    get_name_from_url "http://www.acme.io".data = some "acme".data ∧
    derive_name_spec "http://www.acme.io".data = some [] := ⟨rfl, rfl⟩

/-! ## Python `sorted(list(set(...)))`

`_get_secondpage_urls` ends with `sorted(list(set(secondpage_urls)))`.
Python sorts strings lexicographically by code point; the result is the
sorted list of the distinct elements, which the following executable
functions produce. -/

/-- Code-point lexicographic `<=` on strings, as Python compares them. -/
def strLeb : List Char → List Char → Bool
  | [], _ => true
  | _ :: _, [] => false
  | a :: as, b :: bs => if a = b then strLeb as bs else decide (a < b)

/-- The propositional form of `strLeb`, used to state sortedness. -/
def SLe (x y : String) : Prop := strLeb x.data y.data = true

/-- One insertion step of insertion sort by `strLeb`. -/
def insertStr (x : String) : List String → List String
  | [] => [x]
  | y :: ys => if strLeb x.data y.data then x :: y :: ys else y :: insertStr x ys

/-- Python's `sorted` on strings. -/
def sortStrings : List String → List String
  | [] => []
  | x :: xs => insertStr x (sortStrings xs)

/-- Python's `list(set(xs))`: one copy of every element of `xs`. -/
def dedupStr : List String → List String
  | [] => []
  | x :: xs => x :: (dedupStr xs).filter (fun y => y != x)

/-- Python's `sorted(list(set(xs)))`. -/
def uniqSorted (xs : List String) : List String :=
  sortStrings (dedupStr xs)

theorem strLeb_total : ∀ a b : List Char, strLeb a b = true ∨ strLeb b a = true := by
  intro a
  induction a with
  | nil => intro b; exact Or.inl rfl
  | cons x as ih =>
    intro b
    cases b with
    | nil => exact Or.inr rfl
    | cons y bs =>
      by_cases hxy : x = y
      · subst hxy
        rcases ih bs with h | h
        · exact Or.inl (by rw [strLeb, if_pos rfl]; exact h)
        · exact Or.inr (by rw [strLeb, if_pos rfl]; exact h)
      · rcases lt_or_gt_of_ne hxy with h | h
        · exact Or.inl (by rw [strLeb, if_neg hxy]; exact decide_eq_true h)
        · refine Or.inr ?_
          rw [strLeb, if_neg (fun he => hxy he.symm)]
          exact decide_eq_true h

theorem strLeb_trans : ∀ a b c : List Char,
    strLeb a b = true → strLeb b c = true → strLeb a c = true := by
  intro a
  induction a with
  | nil => intro b c _ _; rfl
  | cons x as ih =>
    intro b c hab hbc
    cases b with
    | nil => exact absurd hab (by rw [strLeb]; exact Bool.false_ne_true)
    | cons y bs =>
      cases c with
      | nil => exact absurd hbc (by rw [strLeb]; exact Bool.false_ne_true)
      | cons z cs =>
        rw [strLeb] at hab hbc ⊢
        by_cases hxy : x = y
        · rw [if_pos hxy] at hab
          by_cases hyz : y = z
          · rw [if_pos hyz] at hbc
            rw [if_pos (hxy.trans hyz)]
            exact ih bs cs hab hbc
          · rw [if_neg hyz] at hbc
            have hlt : y < z := of_decide_eq_true hbc
            rw [if_neg (fun he => hyz ((hxy.symm.trans he) ▸ rfl))]
            exact decide_eq_true (hxy ▸ hlt)
        · rw [if_neg hxy] at hab
          have hxylt : x < y := of_decide_eq_true hab
          by_cases hyz : y = z
          · rw [if_neg (fun he : x = z => hxy (he.trans hyz.symm))]
            exact decide_eq_true (hyz ▸ hxylt)
          · rw [if_neg hyz] at hbc
            have hyzlt : y < z := of_decide_eq_true hbc
            have hxz : x < z := lt_trans hxylt hyzlt
            rw [if_neg (ne_of_lt hxz)]
            exact decide_eq_true hxz

theorem mem_insertStr (x a : String) :
    ∀ l : List String, a ∈ insertStr x l ↔ a = x ∨ a ∈ l := by
  intro l
  induction l with
  | nil => simp [insertStr]
  | cons y ys ih =>
    rw [insertStr]
    by_cases h : strLeb x.data y.data = true
    · rw [if_pos h]
      simp [List.mem_cons]
    · rw [if_neg h]
      simp only [List.mem_cons, ih]
      tauto

theorem perm_insertStr (x : String) :
    ∀ l : List String, (insertStr x l).Perm (x :: l) := by
  intro l
  induction l with
  | nil => exact List.Perm.refl _
  | cons y ys ih =>
    rw [insertStr]
    by_cases h : strLeb x.data y.data = true
    · rw [if_pos h]
    · rw [if_neg h]
      exact (List.Perm.cons y ih).trans (List.Perm.swap x y ys)

theorem perm_sortStrings : ∀ l : List String, (sortStrings l).Perm l := by
  intro l
  induction l with
  | nil => exact List.Perm.refl _
  | cons x xs ih =>
    rw [sortStrings]
    exact (perm_insertStr x (sortStrings xs)).trans (List.Perm.cons x ih)

theorem sorted_insertStr (x : String) :
    ∀ l : List String, List.Sorted SLe l → List.Sorted SLe (insertStr x l) := by
  intro l
  induction l with
  | nil => intro _; simp [insertStr, List.Sorted]
  | cons y ys ih =>
    intro h
    rw [List.sorted_cons] at h
    obtain ⟨hy, hys⟩ := h
    rw [insertStr]
    by_cases hxy : strLeb x.data y.data = true
    · rw [if_pos hxy]
      rw [List.sorted_cons]
      refine ⟨?_, List.sorted_cons.mpr ⟨hy, hys⟩⟩
      intro z hz
      rcases List.mem_cons.mp hz with hz | hz
      · exact hz ▸ hxy
      · exact strLeb_trans x.data y.data z.data hxy (hy z hz)
    · rw [if_neg hxy]
      have hyx : SLe y x := by
        rcases strLeb_total x.data y.data with h' | h'
        · exact absurd h' hxy
        · exact h'
      rw [List.sorted_cons]
      refine ⟨?_, ih hys⟩
      intro z hz
      rcases (mem_insertStr x z ys).mp hz with hz | hz
      · exact hz ▸ hyx
      · exact hy z hz

theorem sorted_sortStrings : ∀ l : List String, List.Sorted SLe (sortStrings l) := by
  intro l
  induction l with
  | nil => simp [sortStrings, List.Sorted]
  | cons x xs ih => exact sorted_insertStr x (sortStrings xs) ih

theorem mem_dedupStr (a : String) :
    ∀ l : List String, a ∈ dedupStr l ↔ a ∈ l := by
  intro l
  induction l with
  | nil => simp [dedupStr]
  | cons x xs ih =>
    rw [dedupStr]
    simp only [List.mem_cons, List.mem_filter, ih]
    constructor
    · rintro (h | ⟨h, _⟩)
      · exact Or.inl h
      · exact Or.inr h
    · rintro (h | h)
      · exact Or.inl h
      · by_cases hax : a = x
        · exact Or.inl hax
        · exact Or.inr ⟨h, by simp [hax]⟩

theorem nodup_dedupStr : ∀ l : List String, (dedupStr l).Nodup := by
  intro l
  induction l with
  | nil => exact List.nodup_nil
  | cons x xs ih =>
    rw [dedupStr, List.nodup_cons]
    refine ⟨?_, ih.filter _⟩
    intro hx
    have := (List.mem_filter.mp hx).2
    simp at this

theorem mem_uniqSorted (a : String) (l : List String) :
    a ∈ uniqSorted l ↔ a ∈ l := by
  rw [uniqSorted, (perm_sortStrings (dedupStr l)).mem_iff, mem_dedupStr]

theorem sorted_uniqSorted (l : List String) :
    List.Sorted SLe (uniqSorted l) ∧ (uniqSorted l).Nodup :=
  ⟨sorted_sortStrings (dedupStr l),
   (perm_sortStrings (dedupStr l)).nodup_iff.mpr (nodup_dedupStr l)⟩

/-! ## Directory Crawler, listing pages: `_get_secondpage_urls`
(scraper.py 307-317)

For each listing page the code collects `re.findall('href\=\"\/[a-z1-9-]*\"\>',
str(tag))` over the anchor tags of the `ranks` container, slices each match
with `[7:-2]`, and finally applies `sorted(list(set(...)))`.  The anchor
tags are environment input (stringified by the HTML parser). -/

/-- The character class `[a-z1-9-]` of the pattern — note that the digit
`0` is not in the class. -/
def isClassChar (c : Char) : Bool :=
  ('a' ≤ c && c ≤ 'z') || ('1' ≤ c && c ≤ '9') || c == '-'

/-- The claim's "lowercase-alphanumeric-and-hyphen" character class, for
comparison with `isClassChar`. -/
def isLowerAlnumHyphen (c : Char) : Bool :=
  ('a' ≤ c && c ≤ 'z') || ('0' ≤ c && c ≤ '9') || c == '-'

/-- Attempt to match `href\=\"\/[a-z1-9-]*\"\>` at the start of `s`,
returning the class-character run of the match.  The greedy `*` takes the
maximal run; as no class character equals `"`, no shorter run can be
followed by `">` either, so the maximal run is the only candidate. -/
def tryMatchSecond (s : List Char) : Option (List Char) :=
  if "href=\"/".data.isPrefixOf s then
    match (s.drop 7).dropWhile isClassChar with
    | '"' :: '>' :: _ => some ((s.drop 7).takeWhile isClassChar)
    | _ => none
  else none

/-- `re.findall` of the second-page pattern: scan left to right, emitting
each match and continuing past it (matches are non-overlapping).  `fuel`
bounds the scan; it is set to the string length, which one step per
consumed character always respects. -/
def findallSecondF : Nat → List Char → List (List Char)
  | 0, _ => []
  | _ + 1, [] => []
  | f + 1, c :: rest =>
    match tryMatchSecond (c :: rest) with
    | some run =>
      ("href=\"/".data ++ (run ++ "\">".data))
        :: findallSecondF f ((c :: rest).drop (9 + run.length))
    | none => findallSecondF f rest

/-- All matches of the second-page pattern in one stringified tag. -/
def findallSecond (s : List Char) : List (List Char) :=
  findallSecondF s.length s

/-- Python slice `[7:-2]`. -/
def pySlice7m2 (l : List Char) : List Char :=
  (l.drop 7).take ((l.drop 7).length - 2)

/-- `_get_secondpage_urls`: collect the matches over every page's tags,
slice off `href="/` and `">`, deduplicate and sort. -/
def get_secondpage_urls (pages : List (List String)) : List String :=
  uniqSorted
    (((pages.flatMap id).flatMap (fun t => findallSecond t.data)).map
      (fun m => String.mk (pySlice7m2 m)))

theorem dropWhile_append_all (p : Char → Bool) (l : List Char) :
    ∀ b : List Char, (∀ x ∈ b, p x = true) →
      (b ++ l).dropWhile p = l.dropWhile p := by
  intro b
  induction b with
  | nil => intro _; rfl
  | cons x b' ih =>
    intro h
    rw [List.cons_append, List.dropWhile_cons, if_pos (h x (List.mem_cons_self x b'))]
    exact ih (fun y hy => h y (List.mem_cons_of_mem x hy))

theorem tryMatchSecond_shape (run b : List Char) (hrun : run.all isClassChar = true) :
    tryMatchSecond ("href=\"/".data ++ (run ++ ('"' :: '>' :: b))) = some run := by
  have hall : ∀ x ∈ run, isClassChar x = true := List.all_eq_true.mp hrun
  have hpre : "href=\"/".data.isPrefixOf
      ("href=\"/".data ++ (run ++ ('"' :: '>' :: b))) = true :=
    List.isPrefixOf_iff_prefix.mpr (List.prefix_append _ _)
  have hdrop : ("href=\"/".data ++ (run ++ ('"' :: '>' :: b))).drop 7
      = run ++ ('"' :: '>' :: b) := List.drop_left' rfl
  have hdw : (run ++ ('"' :: '>' :: b)).dropWhile isClassChar = '"' :: '>' :: b := by
    rw [dropWhile_append_all isClassChar _ run hall, List.dropWhile_cons,
      if_neg (by decide)]
  have htw : (run ++ ('"' :: '>' :: b)).takeWhile isClassChar = run := by
    rw [takeWhile_append_all isClassChar _ run hall, List.takeWhile_cons,
      if_neg (by decide), List.append_nil]
  rw [tryMatchSecond, if_pos hpre, hdrop, hdw]
  show some ((run ++ ('"' :: '>' :: b)).takeWhile isClassChar) = some run
  rw [htw]

theorem tryMatchSecond_ne_h (x : Char) (rest : List Char) (hx : ¬ x = 'h') :
    tryMatchSecond (x :: rest) = none := by
  have hfalse : ("href=\"/".data.isPrefixOf (x :: rest)) = false := by
    show (('h' == x) && ("ref=\"/".data.isPrefixOf rest)) = false
    rw [beq_eq_false_iff_ne.mpr (fun he => hx he.symm), Bool.false_and]
  rw [tryMatchSecond, if_neg (by rw [hfalse]; exact Bool.false_ne_true)]

theorem findallSecondF_shape (run b : List Char) (hrun : run.all isClassChar = true) :
    ∀ (a : List Char) (f : Nat), 'h' ∉ a →
      (a ++ ("href=\"/".data ++ (run ++ ('"' :: '>' :: b)))).length ≤ f →
      ("href=\"/".data ++ (run ++ "\">".data))
        ∈ findallSecondF f (a ++ ("href=\"/".data ++ (run ++ ('"' :: '>' :: b)))) := by
  intro a
  induction a with
  | nil =>
    intro f _ hf
    rw [List.nil_append] at hf ⊢
    cases f with
    | zero =>
      exfalso
      rw [Nat.le_zero, List.length_eq_zero] at hf
      exact List.append_ne_nil_of_left_ne_nil (by decide) _ hf
    | succ f' =>
      have e1 : "href=\"/".data ++ (run ++ ('"' :: '>' :: b))
          = 'h' :: ("ref=\"/".data ++ (run ++ ('"' :: '>' :: b))) := rfl
      rw [e1, findallSecondF]
      have e2 : tryMatchSecond ('h' :: ("ref=\"/".data ++ (run ++ ('"' :: '>' :: b))))
          = some run := tryMatchSecond_shape run b hrun
      rw [e2]
      exact List.mem_cons_self _ _
  | cons x a' ih =>
    intro f hx hf
    have hx' : ¬ x = 'h' := fun he => hx (he ▸ List.mem_cons_self x a')
    rw [List.cons_append] at hf ⊢
    cases f with
    | zero => exact absurd hf (by simp)
    | succ f' =>
      rw [findallSecondF, tryMatchSecond_ne_h x _ hx']
      exact ih f' (fun hm => hx (List.mem_cons_of_mem x hm))
        (by rw [List.length_cons] at hf; omega)

theorem pySlice7m2_match (run : List Char) :
    pySlice7m2 ("href=\"/".data ++ (run ++ "\">".data)) = run := by
  rw [pySlice7m2,
    List.drop_left' (show ("href=\"/".data).length = 7 from rfl), List.length_append,
    show ("\">".data).length = 2 from rfl, Nat.add_sub_cancel]
  exact List.take_left run _

/-- C4 (amended): `_get_secondpage_urls` returns the relative paths whose
`href` consists of `/` followed by characters from the class `[a-z1-9-]` —
lowercase letters, digits 1-9 (zero excluded) and hyphen — immediately
followed by `">`, collected across all listing pages, deduplicated with set
semantics and sorted lexicographically: membership in the output matches
exactly the sliced regex matches, the output is sorted and duplicate-free,
and every tag containing such an href (reachable by the scan) contributes
its path. -/
theorem C4_secondpage_urls :
    (∀ pages p, p ∈ get_secondpage_urls pages ↔
      ∃ t ∈ pages.flatMap id, ∃ m ∈ findallSecond t.data,
        p = String.mk (pySlice7m2 m)) ∧
    (∀ pages, List.Sorted SLe (get_secondpage_urls pages) ∧
      (get_secondpage_urls pages).Nodup) ∧
    (∀ a run b : List Char, 'h' ∉ a → run.all isClassChar = true →
      String.mk run ∈ get_secondpage_urls
        [[String.mk (a ++ ("href=\"/".data ++ (run ++ ('"' :: '>' :: b))))]]) := by
  refine ⟨?_, fun pages => sorted_uniqSorted _, ?_⟩
  · intro pages p
    rw [get_secondpage_urls, mem_uniqSorted]
    simp only [List.mem_map, List.mem_flatMap]
    constructor
    · rintro ⟨m, ⟨t, ht, hm⟩, rfl⟩
      exact ⟨t, ht, m, hm, rfl⟩
    · rintro ⟨t, ht, m, hm, rfl⟩
      exact ⟨m, ⟨t, ht, hm⟩, rfl⟩
  · intro a run b ha hrun
    rw [get_secondpage_urls, mem_uniqSorted]
    refine List.mem_map.mpr ⟨"href=\"/".data ++ (run ++ "\">".data), ?_, ?_⟩
    · refine List.mem_flatMap.mpr
        ⟨String.mk (a ++ ("href=\"/".data ++ (run ++ ('"' :: '>' :: b)))), ?_, ?_⟩
      · simp
      · exact findallSecondF_shape run b hrun a _ ha le_rfl
    · rw [pySlice7m2_match]

theorem C4_secondpage_urls_witness :
    String.mk "acme-co".data ∈ get_secondpage_urls
      [[String.mk ("<a ".data
        ++ ("href=\"/".data ++ ("acme-co".data ++ ('"' :: '>' :: "</a>".data))))]] :=
  C4_secondpage_urls.2.2 "<a ".data "acme-co".data "</a>".data
    (by decide) (by decide)

/-- C4 (counterexample): `"web10"` is made of lowercase-alphanumeric-and-
hyphen characters, so under the claim the tag `href="/web10">` yields the
path `"web10"`; the code's class `[a-z1-9-]` rejects the digit `0` and the
extraction returns nothing. -/
theorem C4_digit_zero_cex :
    "web10".data.all isLowerAlnumHyphen = true ∧
    get_secondpage_urls [["href=\"/web10\">"]] = [] := ⟨rfl, rfl⟩

/-! ## Directory Crawler, startup homepages: `_get_startup_urls`
(scraper.py 296-305)

For each second page the code collects
`re.findall('http\\:\/\/.+\?', str(tag))` over the anchor tags of the
`su-logo` container, and afterwards strips question marks with
`[startup_url.replace("?","") for startup_url in startup_urls]`.  The
pattern matches from `http://` greedily to the last `?` on the line. -/

/-- Attempt to match `http\:\/\/.+\?` at the start of `s`, returning the
`.+\?` part: greedy up to the last `?` of the newline-free span, with at
least one character before it. -/
def tryMatchStartup (s : List Char) : Option (List Char) :=
  if "http://".data.isPrefixOf s then
    match lastIdxOf '?' ((s.drop 7).takeWhile (fun x => x != '\n')) with
    | some q =>
      if 1 ≤ q then
        some (((s.drop 7).takeWhile (fun x => x != '\n')).take (q + 1))
      else none
    | none => none
  else none

/-- `re.findall` of the startup-URL pattern: scan left to right, emitting
each match and continuing past it; `fuel` is set to the string length. -/
def findallStartupF : Nat → List Char → List (List Char)
  | 0, _ => []
  | _ + 1, [] => []
  | f + 1, c :: rest =>
    match tryMatchStartup (c :: rest) with
    | some body =>
      ("http://".data ++ body)
        :: findallStartupF f ((c :: rest).drop (7 + body.length))
    | none => findallStartupF f rest

/-- All matches of the startup-URL pattern in one stringified tag. -/
def findallStartup (s : List Char) : List (List Char) :=
  findallStartupF s.length s

/-- Python `str.replace("?", "")`. -/
def removeQMarks : List Char → List Char
  | [] => []
  | c :: rest => if c = '?' then removeQMarks rest else c :: removeQMarks rest

/-- The claim's "strip only the trailing `?`", for comparison. -/
def stripTrailingQ (s : String) : String :=
  if s.data.getLast? = some '?' then String.mk s.data.dropLast else s

/-- `_get_startup_urls`: collect the matches over every second page's tags
in order, then strip the question marks from every match; no
deduplication. -/
def get_startup_urls (pages : List (List String)) : List String :=
  ((pages.flatMap id).flatMap (fun t => findallStartup t.data)).map
    (fun m => String.mk (removeQMarks m))

theorem removeQMarks_eq_filter :
    ∀ l : List Char, removeQMarks l = l.filter (fun c => c != '?') := by
  intro l
  induction l with
  | nil => rfl
  | cons c rest ih =>
    rw [removeQMarks, List.filter_cons]
    by_cases hc : c = '?'
    · rw [if_pos hc, if_neg (by simp [hc]), ih]
    · rw [if_neg hc, if_pos (by simp [hc]), ih]

theorem tryMatchStartup_shape (m b : List Char) (hm : m ≠ []) (hnl : '\n' ∉ m)
    (hb : '?' ∉ b) :
    tryMatchStartup ("http://".data ++ (m ++ ('?' :: b))) = some (m ++ ['?']) := by
  have hpre : "http://".data.isPrefixOf
      ("http://".data ++ (m ++ ('?' :: b))) = true :=
    List.isPrefixOf_iff_prefix.mpr (List.prefix_append _ _)
  have hdrop : ("http://".data ++ (m ++ ('?' :: b))).drop 7 = m ++ ('?' :: b) :=
    List.drop_left' (show ("http://".data).length = 7 from rfl)
  have hpref : (m ++ ('?' :: b)).takeWhile (fun x => x != '\n')
      = m ++ ('?' :: b.takeWhile (fun x => x != '\n')) := by
    rw [takeWhile_append_all _ _ m
      (fun x hx => by
        have : ¬ x = '\n' := fun he => hnl (he ▸ hx)
        simp [this]),
      List.takeWhile_cons, if_pos (by decide)]
  have hq : '?' ∉ b.takeWhile (fun x => x != '\n') :=
    fun hmem => hb (mem_of_mem_takeWhile hmem)
  have hlast : lastIdxOf '?' ((m ++ ('?' :: b)).takeWhile (fun x => x != '\n'))
      = some m.length := by
    rw [hpref]
    exact lastIdxOf_append_cons '?' _ hq m
  have hlen : 1 ≤ m.length :=
    Nat.one_le_iff_ne_zero.mpr (fun h0 => hm (List.length_eq_zero.mp h0))
  rw [tryMatchStartup, if_pos hpre, hdrop, hlast]
  show (if 1 ≤ m.length then
      some (((m ++ ('?' :: b)).takeWhile (fun x => x != '\n')).take (m.length + 1))
    else none) = some (m ++ ['?'])
  rw [if_pos hlen, hpref, List.take_append 1, List.take_cons, List.take_zero]
  exact Nat.zero_lt_one

theorem tryMatchStartup_ne_h (x : Char) (rest : List Char) (hx : ¬ x = 'h') :
    tryMatchStartup (x :: rest) = none := by
  have hfalse : ("http://".data.isPrefixOf (x :: rest)) = false := by
    show (('h' == x) && ("ttp://".data.isPrefixOf rest)) = false
    rw [beq_eq_false_iff_ne.mpr (fun he => hx he.symm), Bool.false_and]
  rw [tryMatchStartup, if_neg (by rw [hfalse]; exact Bool.false_ne_true)]

theorem findallStartupF_shape (m b : List Char) (hm : m ≠ []) (hnl : '\n' ∉ m)
    (hb : '?' ∉ b) :
    ∀ (a : List Char) (f : Nat), 'h' ∉ a →
      (a ++ ("http://".data ++ (m ++ ('?' :: b)))).length ≤ f →
      ∃ rest, findallStartupF f (a ++ ("http://".data ++ (m ++ ('?' :: b))))
        = ("http://".data ++ (m ++ ['?'])) :: rest := by
  intro a
  induction a with
  | nil =>
    intro f _ hf
    rw [List.nil_append] at hf ⊢
    cases f with
    | zero =>
      exfalso
      rw [Nat.le_zero, List.length_eq_zero] at hf
      exact List.append_ne_nil_of_left_ne_nil (by decide) _ hf
    | succ f' =>
      have e1 : "http://".data ++ (m ++ ('?' :: b))
          = 'h' :: ("ttp://".data ++ (m ++ ('?' :: b))) := rfl
      rw [e1, findallStartupF]
      have e2 : tryMatchStartup ('h' :: ("ttp://".data ++ (m ++ ('?' :: b))))
          = some (m ++ ['?']) := tryMatchStartup_shape m b hm hnl hb
      rw [e2]
      exact ⟨_, rfl⟩
  | cons x a' ih =>
    intro f hx hf
    have hx' : ¬ x = 'h' := fun he => hx (he ▸ List.mem_cons_self x a')
    rw [List.cons_append] at hf ⊢
    cases f with
    | zero => exact absurd hf (by simp)
    | succ f' =>
      rw [findallStartupF, tryMatchStartup_ne_h x _ hx']
      exact ih f' (fun hmem => hx (List.mem_cons_of_mem x hmem))
        (by rw [List.length_cons] at hf; omega)

/-- C5 (amended): `_get_startup_urls` extracts, from each second page's
anchor tags, the matches of the pattern `http\:\/\/.+\?` (absolute-http
prefix, greedily up to the last `?` on the line) and removes every `?`
character from each extracted match — not only the trailing one — before
appending the results, in order and without deduplication, to the output
sequence. -/
theorem C5_startup_urls :
    (∀ pages1 pages2 : List (List String),
      get_startup_urls (pages1 ++ pages2)
        = get_startup_urls pages1 ++ get_startup_urls pages2) ∧
    (∀ m : List Char, removeQMarks m = m.filter (fun c => c != '?')) ∧
    (∀ a m b : List Char, 'h' ∉ a → m ≠ [] → '\n' ∉ m → '?' ∉ b →
      ∃ rest, get_startup_urls
          [[String.mk (a ++ ("http://".data ++ (m ++ ('?' :: b))))]]
        = String.mk ("http://".data ++ m.filter (fun c => c != '?')) :: rest) := by
  refine ⟨?_, removeQMarks_eq_filter, ?_⟩
  · intro pages1 pages2
    rw [get_startup_urls, get_startup_urls, get_startup_urls,
      List.flatMap_append, List.flatMap_append, List.map_append]
  · intro a m b ha hm hnl hb
    obtain ⟨rest, hrest⟩ := findallStartupF_shape m b hm hnl hb a _ ha le_rfl
    refine ⟨rest.map (fun x => String.mk (removeQMarks x)), ?_⟩
    rw [get_startup_urls]
    have hjoin : ([[String.mk (a ++ ("http://".data ++ (m ++ ('?' :: b))))]].flatMap
        id).flatMap (fun t => findallStartup t.data)
        = ("http://".data ++ (m ++ ['?'])) :: rest := by
      show findallStartup (String.mk
        (a ++ ("http://".data ++ (m ++ ('?' :: b))))).data ++ [] = _
      rw [List.append_nil]
      exact hrest
    rw [hjoin, List.map_cons]
    have hclean : removeQMarks ("http://".data ++ (m ++ ['?']))
        = "http://".data ++ m.filter (fun c => c != '?') := by
      rw [removeQMarks_eq_filter, List.filter_append, List.filter_append]
      rw [show List.filter (fun c => c != '?') "http://".data = "http://".data from rfl,
        show List.filter (fun c => c != '?') ['?'] = [] from rfl, List.append_nil]
    rw [hclean]

theorem C5_startup_urls_witness :
    ∃ rest, get_startup_urls
        [[String.mk ("<a src=\"".data ++ ("http://".data
          ++ ("a.io/x".data ++ ('?' :: "\">".data))))]]
      = String.mk ("http://".data
          ++ "a.io/x".data.filter (fun c => c != '?')) :: rest :=
  C5_startup_urls.2.2 "<a src=\"".data "a.io/x".data "\">".data
    (by decide) (by decide) (by decide) (by decide)

/-- C5 (counterexample): from the tag text `href="http://a.io/x?y?">` the
code extracts the greedy match `http://a.io/x?y?` and removes every `?`,
producing `http://a.io/xy`; stripping only the trailing `?`, as the claim
states, would give `http://a.io/x?y`. -/
theorem C5_strip_cex :
    get_startup_urls [["href=\"http://a.io/x?y?\">"]] = ["http://a.io/xy"] ∧
    stripTrailingQ "http://a.io/x?y?" = "http://a.io/x?y" ∧
    ("http://a.io/xy" : String) ≠ "http://a.io/x?y" :=
  ⟨rfl, rfl, by decide⟩

/-! ## Result Collection: `StartupList` (scraper.py 62-142) and the driver
`scrape.py`

`StartupList` owns `startup_urls` (the homepage URLs located so far) and
the inherited list contents (the created `Startup` objects). -/

/-- One `Startup` object as the orchestrator sees it. -/
structure StartupR where
  name : String
  url : String
  finds : Finds
  deriving DecidableEq

/-- The `StartupList` state: located URLs plus created `Startup`s. -/
structure SL where
  startup_urls : List String
  items : List StartupR
  deriving DecidableEq

/-- Python errors surfacing in the embedded fragments. -/
inductive PyErr where
  | assertionError (msg : String)
  | indexError
  deriving DecidableEq

/-- The `text_tuples` comprehension of `save_results`: one (name, keyword,
urls) triple per startup and per key of its `finds`, in order. -/
def text_tuples (items : List StartupR) : List (String × String × List String) :=
  items.flatMap (fun st => st.finds.map (fun kv => (st.name, kv.1, kv.2)))

/-- The `text` comprehension of `save_results`: one comma-joined record per
(name, keyword, url) triple. -/
def save_lines (items : List StartupR) : List String :=
  (text_tuples items).flatMap
    (fun t => t.2.2.map (fun url => t.1 ++ "," ++ t.2.1 ++ "," ++ url))

/-- The file content written by `save_results` — mode `"w"`, so the file
holds exactly this, whatever it held before: every record followed by a
newline, no header. -/
def save_content (items : List StartupR) : String :=
  String.join ((save_lines items).map (fun line => line ++ "\n"))

/-- C6: `save_results` flattens every Startup's `finds` mapping into
(name, keyword, url) triples, writing one comma-joined record per line in
discovery order (per-startup blocks concatenate in order) with no header,
overwriting the file; with no find anywhere it writes an empty, zero-line
file and raises no error (the export is a total function). -/
theorem C6_save_results (items : List StartupR) :
    (∀ line, line ∈ save_lines items ↔ ∃ st ∈ items, ∃ kv ∈ st.finds,
      ∃ u ∈ kv.2, line = st.name ++ "," ++ kv.1 ++ "," ++ u) ∧
    (∀ items2, save_lines (items ++ items2)
      = save_lines items ++ save_lines items2) ∧
    ((∀ st ∈ items, ∀ kv ∈ st.finds, kv.2 = []) → save_content items = "") := by
  have hmem : ∀ line, line ∈ save_lines items ↔ ∃ st ∈ items, ∃ kv ∈ st.finds,
      ∃ u ∈ kv.2, line = st.name ++ "," ++ kv.1 ++ "," ++ u := by
    intro line
    simp only [save_lines, text_tuples, List.mem_flatMap, List.mem_map]
    constructor
    · rintro ⟨t, ⟨st, hst, kv, hkv, rfl⟩, u, hu, rfl⟩
      exact ⟨st, hst, kv, hkv, u, hu, rfl⟩
    · rintro ⟨st, hst, kv, hkv, u, hu, rfl⟩
      exact ⟨(st.name, kv.1, kv.2), ⟨st, hst, kv, hkv, rfl⟩, u, hu, rfl⟩
  refine ⟨hmem, ?_, ?_⟩
  · intro items2
    rw [save_lines, save_lines, save_lines, text_tuples, text_tuples, text_tuples,
      List.flatMap_append, List.flatMap_append]
  · intro h
    have hlines : save_lines items = [] := by
      rw [List.eq_nil_iff_forall_not_mem]
      intro line hline
      obtain ⟨st, hst, kv, hkv, u, hu, _⟩ := (hmem line).mp hline
      rw [h st hst kv hkv] at hu
      exact List.not_mem_nil u hu
    rw [save_content, hlines]
    rfl

theorem C6_save_results_witness :
    save_content [{ name := "acme", url := "http://acme.io", finds := [] }] = "" :=
  (C6_save_results _).2.2 (by simp)

/-- `Startup.__init__`: derive the name from the URL (which may fail) and
start with empty `finds`. -/
def mkStartup (u : String) : Option StartupR :=
  (get_name_from_url u.data).map
    (fun n => { name := String.mk n, url := u, finds := [] })

/-- The append loop of `create_startups`: `Startup`s are appended one by
one, and a name-derivation failure (`IndexError`) stops the loop there,
keeping the earlier appends. -/
def appendStartups (items : List StartupR) : List String → List StartupR × Option PyErr
  | [] => (items, none)
  | u :: us =>
    match mkStartup u with
    | some st => appendStartups (items ++ [st]) us
    | none => (items, some PyErr.indexError)

/-- `StartupList.create_startups`: assert that some URLs exist (an
`AssertionError` with an explanatory message otherwise), then append one
`Startup` per URL. -/
def create_startups (sl : SL) : SL × Option PyErr :=
  if sl.startup_urls.length > 0 then
    ({ sl with items := (appendStartups sl.items sl.startup_urls).1 },
      (appendStartups sl.items sl.startup_urls).2)
  else
    (sl, some (PyErr.assertionError "No startup urls from which to create Startups."))

theorem appendStartups_ok (us : List String)
    (h : ∀ u ∈ us, (mkStartup u).isSome = true) :
    ∀ items, appendStartups items us = (items ++ us.filterMap mkStartup, none) := by
  induction us with
  | nil =>
    intro items
    rw [appendStartups, List.filterMap_nil, List.append_nil]
  | cons u us' ih =>
    intro items
    obtain ⟨st, hst⟩ := Option.isSome_iff_exists.mp (h u (List.mem_cons_self u us'))
    simp only [appendStartups, hst]
    rw [ih (fun v hv => h v (List.mem_cons_of_mem u hv)) (items ++ [st])]
    simp [List.filterMap_cons, hst, List.append_assoc]

theorem filterMap_mkStartup_length (us : List String)
    (h : ∀ u ∈ us, (mkStartup u).isSome = true) :
    (us.filterMap mkStartup).length = us.length := by
  induction us with
  | nil => rfl
  | cons u us' ih =>
    obtain ⟨st, hst⟩ := Option.isSome_iff_exists.mp (h u (List.mem_cons_self u us'))
    simp only [List.filterMap_cons, hst, List.length_cons]
    rw [ih (fun v hv => h v (List.mem_cons_of_mem u hv))]

/-- C7 (amended): `create_startups` invoked with no located URLs fails with
the assertion error "No startup urls from which to create Startups." and
leaves the collection unchanged; with at least one URL, and every URL
yielding a name, it appends exactly one `Startup` per URL — but a URL on
which name derivation fails stops the loop with an `IndexError`, keeping
only the `Startup`s appended before it. -/
theorem C7_create_startups (sl : SL) :
    (sl.startup_urls = [] →
      create_startups sl = (sl, some (PyErr.assertionError
        "No startup urls from which to create Startups."))) ∧
    (sl.startup_urls ≠ [] →
      (∀ u ∈ sl.startup_urls, (mkStartup u).isSome = true) →
      create_startups sl
        = ({ sl with items := sl.items ++ sl.startup_urls.filterMap mkStartup },
           none) ∧
      (sl.items ++ sl.startup_urls.filterMap mkStartup).length
        = sl.items.length + sl.startup_urls.length) := by
  constructor
  · intro h
    rw [create_startups, if_neg (by rw [h]; simp)]
  · intro hne hall
    have hpos : sl.startup_urls.length > 0 :=
      List.length_pos.mpr hne
    rw [create_startups, if_pos hpos, appendStartups_ok sl.startup_urls hall sl.items]
    exact ⟨rfl, by rw [List.length_append, filterMap_mkStartup_length sl.startup_urls hall]⟩

theorem C7_create_startups_witness :
    create_startups { startup_urls := ["http://acme.io"], items := [] }
      = ({ startup_urls := ["http://acme.io"],
           items := [{ name := "acme", url := "http://acme.io", finds := [] }] },
         none) := by
  have h := ((C7_create_startups
    { startup_urls := ["http://acme.io"], items := [] }).2
    (by decide) (by decide)).1
  rw [h]
  rfl

/-- C7 (counterexample): with the non-empty URL list `["http://abc"]` — a
URL with no dot, on which name derivation fails — `create_startups`
appends no `Startup` at all and raises `IndexError`, contradicting the
claim that the presence of at least one URL yields one `Startup` per
URL. -/
theorem C7_malformed_cex :
    create_startups { startup_urls := ["http://abc"], items := [] }
      = ({ startup_urls := ["http://abc"], items := [] },
         some PyErr.indexError) := rfl

/-! ## Orchestration naming: `StartupList.find_startups` vs `scrape.py` -/

/-- The method names `class StartupList` defines (scraper.py 62-142). -/
def startupList_method_names : List String :=
  ["__init__", "find_startups", "create_startups", "scrape_startups", "save_results"]

/-- The methods `scrape.py` invokes on its `StartupList` instance, in
order. -/
def scrape_py_calls : List String :=
  ["locate_startups", "create_startups", "scrape_startups", "save_results"]

/-- The string-or-sequence `names` argument of `find_startups`. -/
inductive NamesArg where
  | single (s : String)
  | many (l : List String)

/-- The normalisation `names = [names] if type(names)==str else names`. -/
def normalizeNames : NamesArg → List String
  | NamesArg.single s => [s]
  | NamesArg.many l => l

/-- `StartupList.find_startups`, with each source's crawl result supplied
by the environment `getUrls`: loop over the names in order and extend
`startup_urls` with each crawl's URLs. -/
def find_startups (getUrls : String → List String) (sl : SL)
    (names : NamesArg) : SL :=
  { sl with startup_urls :=
      sl.startup_urls ++ (normalizeNames names).flatMap getUrls }

/-- C8: the URL-locating behaviour is as claimed — a single source name
behaves as its one-element sequence and each source's URLs are
concatenated in order onto the collection's URL list — but the operation
is named `find_startups`, not `locate_startups`: the name used by the
claim and by `scrape.py` line 5 does not exist on `StartupList`, so the
driver's call `startuplist.locate_startups(...)` raises
`AttributeError`. -/
theorem C8_locate_startups :
    ("locate_startups" ∈ scrape_py_calls ∧
      "locate_startups" ∉ startupList_method_names ∧
      "find_startups" ∈ startupList_method_names) ∧
    (∀ getUrls sl s, find_startups getUrls sl (NamesArg.single s)
      = find_startups getUrls sl (NamesArg.many [s])) ∧
    (∀ getUrls sl names,
      (find_startups getUrls sl (NamesArg.many names)).startup_urls
        = sl.startup_urls ++ names.flatMap getUrls) :=
  ⟨by decide, fun _ _ _ => rfl, fun _ _ _ => rfl⟩

/-! ## Source dispatch: `UrlProvider.get_urls` (scraper.py 271-278) and the
stub `_get_urls_startupsbe` (scraper.py 331-332) -/

/-- `UrlProvider.names_dic`. -/
def names_dic : List (String × String) :=
  [("startupranking", "https://www.startupranking.com/top/belgium"),
   ("startupsbe", "https://data.startups.be/actors")]

/-- The parameter lists of the `_UrlProviderMethods` crawl methods:
`_get_urls_startupranking(driver, base_url, depth)` and
`_get_urls_startupsbe()`. -/
def urlProviderMethodParams (m : String) : Option (List String) :=
  if m = "_get_urls_startupranking" then some ["driver", "base_url", "depth"]
  else if m = "_get_urls_startupsbe" then some []
  else none

/-- Outcome of `UrlProvider.get_urls` up to the dispatch call. -/
inductive CallResult where
  | ok
  | typeError
  | attributeError
  | keyError
  deriving DecidableEq

/-- `UrlProvider.get_urls`: resolve the base URL from `names_dic`
(`KeyError` if the source name is unknown), look the crawl method up as
`'_get_urls_' + name` (`AttributeError` if missing), and call it with the
keyword arguments `driver`, `base_url`, `depth` — a `TypeError` when the
method does not accept them. -/
def get_urls_call (name : String) : CallResult :=
  if (names_dic.lookup name).isSome then
    match urlProviderMethodParams ("_get_urls_" ++ name) with
    | none => CallResult.attributeError
    | some params =>
      if ["driver", "base_url", "depth"].all (fun a => params.contains a) then
        CallResult.ok
      else CallResult.typeError
  else CallResult.keyError

/-- C9: requesting URL collection for the recognized source name
`startupsbe` does not succeed with an empty sequence: the name resolves in
`names_dic` and the dispatch finds `_get_urls_startupsbe`, but that stub
accepts no parameters while `get_urls` passes `driver`, `base_url` and
`depth` as keyword arguments, so the call raises `TypeError`; the
`startupranking` method does accept them and the same call goes
through. -/
theorem C9_startupsbe_stub :
    (names_dic.lookup "startupsbe").isSome = true ∧
    get_urls_call "startupsbe" = CallResult.typeError ∧
    get_urls_call "startupranking" = CallResult.ok := by
  refine ⟨rfl, ?_, ?_⟩ <;> rfl

end StartupScraper
